import Mathlib

/-!
Verification of the mpicxx info wrapper (src/include/mpicxx/info/info.hpp).

The underlying MPI_Info object is modelled as an ordered list of
[key, value] string pairs with unique keys (the invariant the MPI standard
guarantees).  The MPI primitives consumed by the wrapper
(MPI_Info_set, MPI_Info_delete, MPI_Info_get, MPI_Info_get_valuelen,
MPI_Info_get_nkeys, MPI_Info_get_nthkey) are embedded as pure functions on
that list; MPI_Info_set overwrites an existing key in place and appends a
fresh key at the end of the enumeration order, MPI_Info_delete removes the
pair with the given key and keeps the relative order of the others.
The member functions of mpicxx::info are then translated call by call from
the C++ source on top of these primitives.  Handle lifecycle (MPI_INFO_NULL,
MPI_INFO_ENV, freeable flag, MPI_Info_dup / MPI_Info_free) is modelled by a
small heap of dynamically allocated handles.
-/

namespace mpicxx

/-- Contents of one MPI_Info object: the ordered sequence of [key, value]-pairs. -/
abbrev Contents := List (String × String)

/-- Models MPI_Info_get (and the flag of MPI_Info_get_valuelen): the value
associated with a key, or none if the key is absent. -/
def getValue : Contents → String → Option String
  | [], _ => none
  | (k', v) :: rest, k => if k' = k then some v else getValue rest k

/-- Models MPI_Info_set: overwrite the value of an existing key in place,
or append a new [key, value]-pair at the end of the enumeration order. -/
def setKV : Contents → String → String → Contents
  | [], k, v => [(k, v)]
  | (k', v') :: rest, k, v => if k' = k then (k, v) :: rest else (k', v') :: setKV rest k v

/-- Models MPI_Info_delete: remove the [key, value]-pair with the given key,
keeping the relative order of the remaining pairs. -/
def deleteKV : Contents → String → Contents
  | [], _ => []
  | (k', v') :: rest, k => if k' = k then rest else (k', v') :: deleteKV rest k

/-- Keys of an info object in enumeration order. -/
def keysOf (c : Contents) : List String := c.map Prod.fst

/-- Models MPI_Info_get_nthkey: the key at a given position. -/
def nthKey (c : Contents) (n : Nat) : Option String := (keysOf c).get? n

/-- Models MPI_Info_get_nkeys, used by info::size. -/
def nkeys (c : Contents) : Nat := c.length

@[simp] theorem getValue_nil (k : String) : getValue [] k = none := rfl

@[simp] theorem getValue_cons (k' v k : String) (rest : Contents) :
    getValue ((k', v) :: rest) k = if k' = k then some v else getValue rest k := rfl

@[simp] theorem keysOf_nil : keysOf [] = [] := rfl

@[simp] theorem keysOf_cons (p : String × String) (rest : Contents) :
    keysOf (p :: rest) = p.1 :: keysOf rest := rfl

theorem keysOf_append (a b : Contents) : keysOf (a ++ b) = keysOf a ++ keysOf b := by
  simp [keysOf]

theorem getValue_isSome_iff_mem (c : Contents) (k : String) :
    (getValue c k).isSome = true ↔ k ∈ keysOf c := by
  induction c with
  | nil => simp
  | cons p rest ih =>
    obtain ⟨k', v⟩ := p
    by_cases h : k' = k
    · subst h
      simp
    · simp only [getValue_cons, if_neg h, keysOf_cons, List.mem_cons, ih]
      constructor
      · exact fun hm => Or.inr hm
      · rintro (hm | hm)
        · exact absurd hm.symm h
        · exact hm

theorem getValue_eq_none_iff_not_mem (c : Contents) (k : String) :
    getValue c k = none ↔ k ∉ keysOf c := by
  rw [← getValue_isSome_iff_mem]
  cases getValue c k <;> simp

theorem getValue_append_left (a b : Contents) (k : String) (h : k ∈ keysOf a) :
    getValue (a ++ b) k = getValue a k := by
  induction a with
  | nil => simp at h
  | cons p rest ih =>
    obtain ⟨k', v⟩ := p
    by_cases hk : k' = k
    · simp [hk]
    · simp only [keysOf_cons, List.mem_cons] at h
      rcases h with h | h
      · exact absurd h.symm hk
      · simp [hk, ih h]

theorem getValue_append_right (a b : Contents) (k : String) (h : k ∉ keysOf a) :
    getValue (a ++ b) k = getValue b k := by
  induction a with
  | nil => simp
  | cons p rest ih =>
    obtain ⟨k', v⟩ := p
    simp only [keysOf_cons, List.mem_cons, not_or] at h
    have hne : k' ≠ k := fun hh => h.1 hh.symm
    simp [if_neg hne, ih h.2]

@[simp] theorem setKV_nil (k v : String) : setKV [] k v = [(k, v)] := rfl

@[simp] theorem setKV_cons (k' v' k v : String) (rest : Contents) :
    setKV ((k', v') :: rest) k v =
      if k' = k then (k, v) :: rest else (k', v') :: setKV rest k v := rfl

theorem getValue_setKV_self (c : Contents) (k v : String) :
    getValue (setKV c k v) k = some v := by
  induction c with
  | nil => simp
  | cons p rest ih =>
    obtain ⟨k', v'⟩ := p
    by_cases h : k' = k <;> simp [h, ih]

theorem getValue_setKV_other (c : Contents) (k v k'' : String) (h : k'' ≠ k) :
    getValue (setKV c k v) k'' = getValue c k'' := by
  induction c with
  | nil => simp [Ne.symm h]
  | cons p rest ih =>
    obtain ⟨k', v'⟩ := p
    by_cases hk : k' = k
    · subst hk
      simp [Ne.symm h]
    · by_cases hk2 : k' = k'' <;> simp [hk, hk2, h, ih]

theorem setKV_of_not_mem (c : Contents) (k v : String) (h : k ∉ keysOf c) :
    setKV c k v = c ++ [(k, v)] := by
  induction c with
  | nil => simp
  | cons p rest ih =>
    obtain ⟨k', v'⟩ := p
    simp only [keysOf_cons, List.mem_cons, not_or] at h
    have hne : k' ≠ k := fun hh => h.1 hh.symm
    simp [if_neg hne, ih h.2]

theorem keysOf_setKV_mem (c : Contents) (k v : String) (h : k ∈ keysOf c) :
    keysOf (setKV c k v) = keysOf c := by
  induction c with
  | nil => simp at h
  | cons p rest ih =>
    obtain ⟨k', v'⟩ := p
    by_cases hk : k' = k
    · simp [hk]
    · simp only [keysOf_cons, List.mem_cons] at h
      rcases h with h | h
      · exact absurd h.symm hk
      · simp [hk, ih h]

@[simp] theorem deleteKV_nil (k : String) : deleteKV [] k = [] := rfl

@[simp] theorem deleteKV_cons (k' v' k : String) (rest : Contents) :
    deleteKV ((k', v') :: rest) k =
      if k' = k then rest else (k', v') :: deleteKV rest k := rfl

theorem getValue_deleteKV_other (c : Contents) (k k'' : String) (h : k'' ≠ k) :
    getValue (deleteKV c k) k'' = getValue c k'' := by
  induction c with
  | nil => simp
  | cons p rest ih =>
    obtain ⟨k', v'⟩ := p
    by_cases hk : k' = k
    · subst hk
      simp [Ne.symm h]
    · by_cases hk2 : k' = k'' <;> simp [hk, hk2, h, ih]

theorem getValue_deleteKV_self (c : Contents) (k : String) (h : (keysOf c).Nodup) :
    getValue (deleteKV c k) k = none := by
  induction c with
  | nil => simp
  | cons p rest ih =>
    obtain ⟨k', v'⟩ := p
    simp only [keysOf_cons, List.nodup_cons] at h
    by_cases hk : k' = k
    · subst hk
      simp [getValue_eq_none_iff_not_mem, h.1]
    · simp [hk, ih h.2]

theorem getValue_deleteKV_none (c : Contents) (k k'' : String) (h : getValue c k'' = none) :
    getValue (deleteKV c k) k'' = none := by
  induction c with
  | nil => simp
  | cons p rest ih =>
    obtain ⟨k', v'⟩ := p
    by_cases hk2 : k' = k''
    · simp [hk2] at h
    · simp only [getValue_cons, if_neg hk2] at h
      by_cases hk : k' = k
      · simp [hk, h]
      · simp [hk, hk2, ih h]

theorem deleteKV_append_of_not_mem (a b : Contents) (k : String) (h : k ∉ keysOf a) :
    deleteKV (a ++ b) k = a ++ deleteKV b k := by
  induction a with
  | nil => simp
  | cons p rest ih =>
    obtain ⟨k', v'⟩ := p
    simp only [keysOf_cons, List.mem_cons, not_or] at h
    have hne : k' ≠ k := fun hh => h.1 hh.symm
    simp [if_neg hne, ih h.2]

/-- Handle values of the C type MPI_Info: the predefined handles MPI_INFO_NULL
and MPI_INFO_ENV plus dynamically allocated handles. -/
inductive MPI_Info where
  | null : MPI_Info
  | env : MPI_Info
  | dyn : Nat → MPI_Info
deriving DecidableEq

/-- Heap of dynamically allocated MPI_Info objects plus the contents of
MPI_INFO_ENV.  Index i of the heap backs handle dyn i; none marks a freed
slot. -/
structure MPIStore where
  heap : List (Option Contents)
  envC : Contents
deriving DecidableEq

namespace MPIStore

/-- Contents a handle refers to; none for MPI_INFO_NULL and freed handles. -/
def get (st : MPIStore) : MPI_Info → Option Contents
  | .null => none
  | .env => some st.envC
  | .dyn i => (st.heap[i]?).getD none

/-- Models MPI_Info_dup: allocate a fresh handle holding a copy of the
contents of the given handle. -/
def dup (st : MPIStore) (h : MPI_Info) : MPIStore × MPI_Info :=
  (⟨st.heap ++ [st.get h], st.envC⟩, .dyn st.heap.length)

/-- Models MPI_Info_free: deallocate a dynamically allocated handle. -/
def free (st : MPIStore) : MPI_Info → MPIStore
  | .dyn i => ⟨st.heap.set i none, st.envC⟩
  | .null => ⟨st.heap, st.envC⟩
  | .env => ⟨st.heap, st.envC⟩

/-- Models MPI_Info_set at the store level. -/
def setAt (st : MPIStore) (h : MPI_Info) (k v : String) : MPIStore :=
  match h with
  | .null => st
  | .env => ⟨st.heap, setKV st.envC k v⟩
  | .dyn i =>
    match st.heap[i]? with
    | some (some c) => ⟨st.heap.set i (some (setKV c k v)), st.envC⟩
    | _ => st

/-- Models MPI_Info_delete at the store level. -/
def delAt (st : MPIStore) (h : MPI_Info) (k : String) : MPIStore :=
  match h with
  | .null => st
  | .env => ⟨st.heap, deleteKV st.envC k⟩
  | .dyn i =>
    match st.heap[i]? with
    | some (some c) => ⟨st.heap.set i (some (deleteKV c k)), st.envC⟩
    | _ => st

end MPIStore

/-- The mpicxx::info wrapper state: the wrapped handle plus the freeable flag
(fields info_ and is_freeable_, info.hpp:2331-2332). -/
structure info where
  info_ : MPI_Info
  is_freeable_ : Bool
deriving DecidableEq

namespace info

/-- Condition under which the destructor info::~info (info.hpp:744-748) calls
MPI_Info_free: the wrapper is freeable and its handle is not MPI_INFO_NULL.
The body contains no further check. -/
def destructorFrees (w : info) : Bool :=
  w.is_freeable_ && decide (w.info_ ≠ MPI_Info.null)

/-- Models info::~info acting on the store. -/
def destruct (st : MPIStore) (w : info) : MPIStore :=
  if destructorFrees w then st.free w.info_ else st

/-- Condition asserted by the wrap-existing constructor info(MPI_Info, bool)
(info.hpp:722-725): neither MPI_INFO_NULL nor MPI_INFO_ENV may be marked
freeable. -/
def wrapCtorAssert (h : MPI_Info) (fr : Bool) : Bool :=
  decide (¬(h = MPI_Info.null ∧ fr = true)) && decide (¬(h = MPI_Info.env ∧ fr = true))

/-- Models the wrap-existing constructor info(MPI_Info, bool). -/
def wrap (h : MPI_Info) (fr : Bool) : info := ⟨h, fr⟩

/-- The singleton info::env = info(MPI_INFO_ENV, false) (info.hpp:2336). -/
def env : info := ⟨MPI_Info.env, false⟩

/-- Models the copy constructor info(const info&) (info.hpp:616-620):
duplicate the source handle into a fresh handle, freeable flag set to true. -/
def copyCtor (st : MPIStore) (other : info) : MPIStore × info :=
  let r := st.dup other.info_
  (r.1, ⟨r.2, true⟩)

/-- Models the copy assignment operator (info.hpp:771-785).  sameObject records
the outcome of the address check this == std::addressof(rhs).  wrapper value is
returned together with the store and two flags reporting whether MPI_Info_free
and MPI_Info_dup were called. -/
def copyAssign (st : MPIStore) (lhs rhs : info) (sameObject : Bool) :
    MPIStore × info × Bool × Bool :=
  if sameObject then (st, lhs, false, false)
  else
    let st1 := if destructorFrees lhs then st.free lhs.info_ else st
    let r := st1.dup rhs.info_
    (r.1, ⟨r.2, true⟩, destructorFrees lhs, true)

/-- Models info::key_exists (info.hpp:2325-2329): the flag of
MPI_Info_get_valuelen. -/
def key_exists (c : Contents) (k : String) : Bool := (getValue c k).isSome

/-- Models info::find_pos (info.hpp:2299-2311): scan positions 0..size-1 via
MPI_Info_get_nthkey, returning the first position holding the key, or size
when the key is absent. -/
def find_pos (k : String) : List String → Nat
  | [] => 0
  | k' :: rest => if k' = k then 0 else find_pos k rest + 1

/-- Models info::insert(string_view, string_view) (info.hpp:1268-1285):
MPI_Info_set only when the key does not yet exist, then an iterator built from
find_pos on the updated object, plus the inserted flag. -/
def insert (c : Contents) (k v : String) : Contents × Nat × Bool :=
  let key_already_exists := key_exists c k
  let c1 := if key_already_exists then c else setKV c k v
  (c1, find_pos k (keysOf c1), !key_already_exists)

/-- Models info::insert_or_assign(string_view, string_view)
(info.hpp:1395-1410): unconditional MPI_Info_set, then an iterator built from
find_pos on the updated object, plus the inserted flag. -/
def insert_or_assign (c : Contents) (k v : String) : Contents × Nat × Bool :=
  let key_already_exists := key_exists c k
  let c1 := setKV c k v
  (c1, find_pos k (keysOf c1), !key_already_exists)

/-- Proxy bound to one key (class info::string_proxy, info.hpp:55-141).  The
C++ object stores the MPI_Info handle and an owned key copy; here the key is
stored and the contents of the handle are passed at use time. -/
structure string_proxy where
  key_ : String
deriving DecidableEq

/-- Models string_proxy::operator std::string (info.hpp:103-118): read through
the proxy against the contents live at read time; an absent key is inserted
with the single-space value and the single-space string is returned. -/
def string_proxy.read (p : string_proxy) (c : Contents) : Contents × String :=
  match getValue c p.key_ with
  | none => (setKV c p.key_ " ", " ")
  | some v => (c, v)

/-- Models string_proxy::operator=(string_view) (info.hpp:78-84): one
unconditional MPI_Info_set of the bound key. -/
def string_proxy.write (p : string_proxy) (c : Contents) (v : String) : Contents :=
  setKV c p.key_ v

/-- Models the mutable overload info::at (info.hpp:1126-1139): the body only
calls MPI_Info_get_valuelen (via key_exists), so the contents pass through
unchanged; an absent key raises std::out_of_range, a present key yields a
proxy bound to the key. -/
def atMutable (c : Contents) (k : String) : Contents × Except String string_proxy :=
  if !(key_exists c k) then (c, Except.error "The specified key does not exist!")
  else (c, Except.ok ⟨k⟩)

/-- Models the const overload info::at (info.hpp:1168-1186): the flag of
MPI_Info_get_valuelen decides between std::out_of_range and fetching the value
by copy; only read calls are made, so the contents pass through unchanged. -/
def atConst (c : Contents) (k : String) : Contents × Except String String :=
  match getValue c k with
  | none => (c, Except.error "The specified key does not exist!")
  | some v => (c, Except.ok v)

/-- Models info::operator[] (info.hpp:1230-1238): no MPI call is made, only a
proxy is constructed; the contents component records the untouched handle. -/
def opIndex (c : Contents) (k : String) : Contents × string_proxy := (c, ⟨k⟩)

/-- Models info::erase(const_iterator, const_iterator) (info.hpp:1583-1611):
the keys at positions first..last-1 are snapshotted from the unmodified object
into an ordered list, then each snapshotted key is deleted, and the position
of first is returned. -/
def eraseRange (c : Contents) (first last : Nat) : Contents × Nat :=
  let keys_to_delete := keysOf ((c.drop first).take (last - first))
  (keys_to_delete.foldl deleteKV c, first)

/-- Phase one of info::merge (info.hpp:1791-1813): walk the pairs of source
(stable, since source receives no set or delete during the walk), copying each
pair whose key is absent from the evolving target into the target and
recording its key for later deletion. -/
def mergeLoop : Contents → Contents → Contents × List String
  | tC, [] => (tC, [])
  | tC, (k, v) :: rest =>
    if key_exists tC k then mergeLoop tC rest
    else
      let r := mergeLoop (setKV tC k v) rest
      (r.1, k :: r.2)

/-- Models info::merge (info.hpp:1784-1819).  sameObject records the outcome
of the address check this == std::addressof(source); phase two deletes the
recorded keys from source only after the whole walk over source is complete. -/
def merge (tC sC : Contents) (sameObject : Bool) : Contents × Contents :=
  if sameObject then (tC, sC)
  else
    let r := mergeLoop tC sC
    (r.1, r.2.foldl deleteKV sC)

/-- Loop of operator== (info.hpp:2061-2096) over the keys of lhs.  For each lhs
key, the rhs MPI_Info_get_valuelen flag decides containment, then the two value
lengths are compared, and only then the two value strings; the second component
counts the MPI_Info_get content fetches (two per reached content comparison).
The inner none branch is unreachable because every walked key is an lhs key. -/
def eqLoop (lhsC rhsC : Contents) : List String → Bool × Nat
  | [] => (true, 0)
  | k :: rest =>
    match getValue rhsC k with
    | none => (false, 0)
    | some rv =>
      match getValue lhsC k with
      | none => (false, 0)
      | some lv =>
        if lv.length ≠ rv.length then (false, 0)
        else if lv ≠ rv then (false, 2)
        else
          let r := eqLoop lhsC rhsC rest
          (r.1, r.2 + 2)

/-- Models operator==(const info&, const info&) (info.hpp:2051-2100) together
with the number of MPI_Info_get value-content calls it performs: the size
comparison short-circuits before any per-element work. -/
def eqImpl (lhsC rhsC : Contents) : Bool × Nat :=
  if lhsC.length ≠ rhsC.length then (false, 0)
  else eqLoop lhsC rhsC (keysOf lhsC)

/-- Result of operator==. -/
def infoEq (lhsC rhsC : Contents) : Bool := (eqImpl lhsC rhsC).1

/-- Models operator!=(const info&, const info&) (info.hpp:2119-2124). -/
def infoNe (lhsC rhsC : Contents) : Bool := !(infoEq lhsC rhsC)

end info

theorem find_pos_get_of_mem (k : String) (ks : List String) (h : k ∈ ks) :
    ks.get? (info.find_pos k ks) = some k := by
  induction ks with
  | nil => simp at h
  | cons k' rest ih =>
    by_cases hk : k' = k
    · simp [info.find_pos, hk]
    · have hm : k ∈ rest := by
        rcases List.mem_cons.mp h with hh | hh
        · exact absurd hh.symm hk
        · exact hh
      simp only [info.find_pos, if_neg hk, List.get?_cons_succ]
      exact ih hm

/-- C1 counterexample: the destructor body (info.hpp:744-748) checks only the
freeable flag and MPI_INFO_NULL, so a wrapper whose handle is MPI_INFO_ENV and
whose freeable flag is somehow true does call MPI_Info_free, refuting the
clause that the ambient-environment handle is never released even if marked
freeable. -/
theorem C1_destructor_env_counterexample :
    info.destructorFrees ⟨MPI_Info.env, true⟩ = true
    ∧ ¬(∀ w : info, w.info_ = MPI_Info.env → info.destructorFrees w = false) := by
  refine ⟨by decide, fun h => ?_⟩
  have := h ⟨MPI_Info.env, true⟩ rfl
  simp [info.destructorFrees] at this

/-- C1 (amended): the destructor releases the handle iff the freeable flag is
true and the handle is not MPI_INFO_NULL; it has no env-specific double-check,
but any wrapper holding MPI_INFO_ENV that satisfies the wrap constructor's
assertion (info.hpp:724) is non-freeable and hence never released, and the
info::env singleton (info.hpp:2336) is constructed non-freeable and never
released. -/
theorem C1_destructor_frees_iff (w : info) (st : MPIStore) :
    (info.destructorFrees w = true ↔ w.is_freeable_ = true ∧ w.info_ ≠ MPI_Info.null)
    ∧ (w.info_ = MPI_Info.env → info.wrapCtorAssert w.info_ w.is_freeable_ = true →
        info.destructorFrees w = false)
    ∧ info.destructorFrees info.env = false
    ∧ info.destruct st info.env = st := by
  obtain ⟨h, fr⟩ := w
  refine ⟨?_, ?_, by decide, rfl⟩
  · simp [info.destructorFrees]
  · rintro rfl hassert
    have : fr = false := by
      cases fr with
      | false => rfl
      | true => exact absurd hassert (by decide)
    subst this
    decide

/-- C1 amended witness at the env singleton. -/
theorem C1_destructor_frees_iff_witness :
    (info.env.is_freeable_ = true ∧ info.env.info_ ≠ MPI_Info.null → info.destructorFrees info.env = true)
    ∧ info.destructorFrees info.env = false :=
  ⟨fun hc => (C1_destructor_frees_iff info.env ⟨[], []⟩).1.mpr hc,
   (C1_destructor_frees_iff info.env ⟨[], []⟩).2.1 rfl (by decide)⟩

/-- C9: self copy-assignment (the this == std::addressof(rhs) branch of
info.hpp:771-785) is a complete no-op: the store, the handle and the freeable
flag (hence every [key, value]-pair) are unchanged, and neither MPI_Info_free
nor MPI_Info_dup is called. -/
theorem C9_self_copy_assignment (st : MPIStore) (w : info) :
    info.copyAssign st w w true = (st, w, false, false)
    ∧ (info.copyAssign st w w true).1.get w.info_ = st.get w.info_
    ∧ (info.copyAssign st w w true).2.1.info_ = w.info_
    ∧ (info.copyAssign st w w true).2.1.is_freeable_ = w.is_freeable_ :=
  ⟨rfl, rfl, rfl, rfl⟩

/-- C3: both overloads of info::at signal the recoverable out-of-range error
exactly when the key is absent, and they never mutate the contents (their
bodies issue only read calls); on a present key the mutable overload returns a
proxy bound to that key and the const overload returns the stored value by
copy. -/
theorem C3_at_key_not_found (c : Contents) (k : String) :
    ((info.atMutable c k).2 = Except.error "The specified key does not exist!" ↔
        getValue c k = none)
    ∧ ((info.atConst c k).2 = Except.error "The specified key does not exist!" ↔
        getValue c k = none)
    ∧ (info.atMutable c k).1 = c
    ∧ (info.atConst c k).1 = c
    ∧ (∀ v, getValue c k = some v →
        (info.atMutable c k).2 = Except.ok ⟨k⟩ ∧ (info.atConst c k).2 = Except.ok v) := by
  cases h : getValue c k with
  | none => simp [info.atMutable, info.atConst, info.key_exists, h]
  | some v => simp [info.atMutable, info.atConst, info.key_exists, h]

/-- C3 witness: at a present key the error is not raised and the value is
returned; at an absent key the error is raised. -/
theorem C3_at_key_not_found_witness :
    getValue [("a", "1")] "a" = some "1"
    ∧ ((info.atMutable [("a", "1")] "a").2 = Except.ok ⟨"a"⟩
        ∧ (info.atConst [("a", "1")] "a").2 = Except.ok "1") :=
  ⟨by decide, (C3_at_key_not_found [("a", "1")] "a").2.2.2.2 "1" (by decide)⟩

/-- C4: operator[] is total (never throws) and returns a proxy bound to the
key; reading through that proxy at a moment the key is absent inserts the
single-space value as a side effect and returns the single-space string, at a
moment the key is present it returns the stored value verbatim with the
contents untouched; writing through the proxy unconditionally sets the key to
the given value, leaving every other key unchanged. -/
theorem C4_opIndex_proxy (c c2 : Contents) (k v : String) :
    (info.opIndex c k).2 = ⟨k⟩
    ∧ (getValue c2 k = none →
        info.string_proxy.read (info.opIndex c k).2 c2 = (setKV c2 k " ", " ")
        ∧ getValue (info.string_proxy.read (info.opIndex c k).2 c2).1 k = some " ")
    ∧ (∀ w, getValue c2 k = some w →
        info.string_proxy.read (info.opIndex c k).2 c2 = (c2, w))
    ∧ (getValue (info.string_proxy.write (info.opIndex c k).2 c2 v) k = some v
        ∧ ∀ k2, k2 ≠ k →
            getValue (info.string_proxy.write (info.opIndex c k).2 c2 v) k2 = getValue c2 k2) := by
  refine ⟨rfl, fun h => ?_, fun w h => ?_, ?_, fun k2 h2 => ?_⟩
  · simp [info.string_proxy.read, info.opIndex, h, getValue_setKV_self]
  · simp [info.string_proxy.read, info.opIndex, h]
  · simp [info.string_proxy.write, info.opIndex, getValue_setKV_self]
  · simp [info.string_proxy.write, info.opIndex, getValue_setKV_other c2 k v k2 h2]

/-- C4 witness: reading through the proxy of an absent key inserts the
single-space pair; reading a present key returns its value verbatim. -/
theorem C4_opIndex_proxy_witness :
    getValue [("a", "1")] "b" = none
    ∧ info.string_proxy.read (info.opIndex [("a", "1")] "b").2 [("a", "1")] =
        (setKV [("a", "1")] "b" " ", " ")
    ∧ getValue (info.string_proxy.read (info.opIndex [("a", "1")] "b").2 [("a", "1")]).1 "b" =
        some " " :=
  ⟨by decide,
   ((C4_opIndex_proxy [("a", "1")] [("a", "1")] "b" "x").2.1 (by decide)).1,
   ((C4_opIndex_proxy [("a", "1")] [("a", "1")] "b" "x").2.1 (by decide)).2⟩

/-- C10: evaluating operator[] by itself performs no MPI call, so the
contents, the size and every association are unchanged; the single-space
insertion can only happen later, at proxy read time, and only if the key is
absent in the contents live at that moment. -/
theorem C10_opIndex_no_side_effect (c c2 : Contents) (k : String) :
    (info.opIndex c k).1 = c
    ∧ nkeys (info.opIndex c k).1 = nkeys c
    ∧ (∀ k2, getValue (info.opIndex c k).1 k2 = getValue c k2)
    ∧ (getValue c2 k = none →
        (info.string_proxy.read (info.opIndex c k).2 c2).1 = setKV c2 k " ")
    ∧ ((getValue c2 k).isSome = true →
        (info.string_proxy.read (info.opIndex c k).2 c2).1 = c2) := by
  refine ⟨rfl, rfl, fun k2 => rfl, fun h => ?_, fun h => ?_⟩
  · simp [info.string_proxy.read, info.opIndex, h]
  · obtain ⟨w, hw⟩ := Option.isSome_iff_exists.mp h
    simp [info.string_proxy.read, info.opIndex, hw]

theorem foldl_deleteKV_eq_append (b : Contents) :
    ∀ a c : Contents, (keysOf a ++ (keysOf b ++ keysOf c)).Nodup →
      (keysOf b).foldl deleteKV (a ++ (b ++ c)) = a ++ c := by
  induction b with
  | nil =>
    intro a c h
    simp
  | cons p rest ih =>
    intro a c h
    obtain ⟨k, v⟩ := p
    have h1 : (k :: (keysOf a ++ (keysOf rest ++ keysOf c))).Nodup :=
      List.nodup_middle.mp (by simpa using h)
    rw [List.nodup_cons] at h1
    have hka : k ∉ keysOf a := fun hm => h1.1 (List.mem_append.mpr (Or.inl hm))
    have step : deleteKV (a ++ ((k, v) :: (rest ++ c))) k = a ++ (rest ++ c) := by
      rw [deleteKV_append_of_not_mem a ((k, v) :: (rest ++ c)) k hka]
      simp
    have hgoal : (keysOf rest).foldl deleteKV (a ++ (rest ++ c)) = a ++ c := ih a c h1.2
    simpa [List.cons_append, step] using hgoal

/-- C6: erase(first, last) snapshots the keys at positions first..last-1 of
the unmodified object into an ordered list before any delete, then deletes
exactly those keys: the surviving contents are the pairs before first followed
by the pairs from last on, the size shrinks by last - first, none of the
snapshotted keys remains, and the returned iterator position is first. -/
theorem C6_erase_range (c : Contents) (first last : Nat)
    (h1 : first ≤ last) (h2 : last ≤ c.length) (hnd : (keysOf c).Nodup) :
    (info.eraseRange c first last).1 = c.take first ++ c.drop last
    ∧ (info.eraseRange c first last).2 = first
    ∧ nkeys (info.eraseRange c first last).1 = nkeys c - (last - first)
    ∧ (∀ k, k ∈ keysOf ((c.drop first).take (last - first)) →
        getValue (info.eraseRange c first last).1 k = none) := by
  have hdecomp : c = c.take first ++ ((c.drop first).take (last - first) ++ c.drop last) := by
    have hdd : ((c.drop first).drop (last - first)) = c.drop last := by
      have he : first + (last - first) = last := by omega
      rw [List.drop_drop, he]
    rw [← hdd, List.take_append_drop, List.take_append_drop]
  have hnd2 : (keysOf (c.take first) ++
      (keysOf ((c.drop first).take (last - first)) ++ keysOf (c.drop last))).Nodup := by
    have := hnd
    rw [hdecomp] at this
    simpa [keysOf_append] using this
  have hmain : (info.eraseRange c first last).1 = c.take first ++ c.drop last := by
    show (keysOf ((c.drop first).take (last - first))).foldl deleteKV c =
      c.take first ++ c.drop last
    conv in List.foldl _ c => rw [hdecomp]
    exact foldl_deleteKV_eq_append _ _ _ hnd2
  refine ⟨hmain, rfl, ?_, ?_⟩
  · rw [hmain]
    simp only [nkeys, List.length_append, List.length_take, List.length_drop]
    omega
  · intro k hk
    rw [hmain]
    rw [getValue_eq_none_iff_not_mem, keysOf_append]
    intro hmem
    rcases List.mem_append.mp hmem with hA | hC
    · have hd := List.disjoint_of_nodup_append hnd2
      exact hd hA (List.mem_append.mpr (Or.inl hk))
    · have hBC := (List.nodup_append.mp hnd2).2.1
      exact (List.disjoint_of_nodup_append hBC) hk hC

/-- C6 witness on a concrete four-element object erasing positions [1, 3). -/
theorem C6_erase_range_witness :
    (1 ≤ 3 ∧ 3 ≤ ([("a", "1"), ("b", "2"), ("c", "3"), ("d", "4")] : Contents).length
      ∧ (keysOf [("a", "1"), ("b", "2"), ("c", "3"), ("d", "4")]).Nodup)
    ∧ (info.eraseRange [("a", "1"), ("b", "2"), ("c", "3"), ("d", "4")] 1 3).1 =
        ([("a", "1"), ("b", "2"), ("c", "3"), ("d", "4")] : Contents).take 1 ++
          ([("a", "1"), ("b", "2"), ("c", "3"), ("d", "4")] : Contents).drop 3
    ∧ (info.eraseRange [("a", "1"), ("b", "2"), ("c", "3"), ("d", "4")] 1 3).2 = 1 :=
  ⟨⟨by decide, by decide, by decide⟩,
   (C6_erase_range [("a", "1"), ("b", "2"), ("c", "3"), ("d", "4")] 1 3
      (by decide) (by decide) (by decide)).1,
   (C6_erase_range [("a", "1"), ("b", "2"), ("c", "3"), ("d", "4")] 1 3
      (by decide) (by decide) (by decide)).2.1⟩

theorem eqLoop_fst_true_iff (lhsC rhsC : Contents) (ks : List String) :
    (info.eqLoop lhsC rhsC ks).1 = true ↔
      ∀ k ∈ ks, ∃ v, getValue lhsC k = some v ∧ getValue rhsC k = some v := by
  induction ks with
  | nil => simp [info.eqLoop]
  | cons k rest ih =>
    cases hrv : getValue rhsC k with
    | none =>
      simp only [info.eqLoop, hrv]
      constructor
      · intro h
        simp at h
      · intro hall
        obtain ⟨v, _, hv2⟩ := hall k (List.mem_cons_self k rest)
        rw [hrv] at hv2
        cases hv2
    | some rv =>
      cases hlv : getValue lhsC k with
      | none =>
        simp only [info.eqLoop, hrv, hlv]
        constructor
        · intro h
          simp at h
        · intro hall
          obtain ⟨v, hv1, _⟩ := hall k (List.mem_cons_self k rest)
          rw [hlv] at hv1
          cases hv1
      | some lv =>
        by_cases hlen : lv.length ≠ rv.length
        · have hne : lv ≠ rv := fun he => hlen (he ▸ rfl)
          simp only [info.eqLoop, hrv, hlv, if_pos hlen]
          constructor
          · intro h
            simp at h
          · intro hall
            obtain ⟨v, hv1, hv2⟩ := hall k (List.mem_cons_self k rest)
            rw [hlv] at hv1
            rw [hrv] at hv2
            obtain rfl := Option.some_injective _ hv1
            obtain rfl := Option.some_injective _ hv2
            exact absurd rfl hne
        · by_cases heq : lv = rv
          · subst heq
            have hne2 : ¬(lv ≠ lv) := fun hc => hc rfl
            simp only [info.eqLoop, hrv, hlv, if_neg hlen, if_neg hne2]
            rw [ih]
            constructor
            · intro h k2 hk2
              rcases List.mem_cons.mp hk2 with rfl | hk2
              · exact ⟨lv, hlv, hrv⟩
              · exact h k2 hk2
            · intro h k2 hk2
              exact h k2 (List.mem_cons_of_mem k hk2)
          · simp only [info.eqLoop, hrv, hlv, if_neg hlen, if_pos heq]
            constructor
            · intro h
              simp at h
            · intro hall
              obtain ⟨v, hv1, hv2⟩ := hall k (List.mem_cons_self k rest)
              rw [hlv] at hv1
              rw [hrv] at hv2
              obtain rfl := Option.some_injective _ hv1
              obtain rfl := Option.some_injective _ hv2
              exact absurd rfl heq

theorem infoEq_true_iff (a b : Contents) :
    info.infoEq a b = true ↔
      (a.length = b.length ∧ ∀ k ∈ keysOf a, getValue b k = getValue a k) := by
  unfold info.infoEq info.eqImpl
  by_cases hlen : a.length = b.length
  · rw [if_neg (not_not_intro hlen)]
    rw [eqLoop_fst_true_iff]
    constructor
    · intro h
      refine ⟨hlen, fun k hk => ?_⟩
      obtain ⟨v, hv1, hv2⟩ := h k hk
      rw [hv1, hv2]
    · rintro ⟨-, h⟩ k hk
      obtain ⟨v, hv⟩ := Option.isSome_iff_exists.mp ((getValue_isSome_iff_mem a k).mpr hk)
      exact ⟨v, hv, by rw [h k hk, hv]⟩
  · rw [if_pos hlen]
    simp [hlen]

theorem infoEq_true_flip (a b : Contents) (ha : (keysOf a).Nodup) :
    info.infoEq a b = true → info.infoEq b a = true := by
  rw [infoEq_true_iff, infoEq_true_iff]
  rintro ⟨hlen, h⟩
  have hsub : keysOf a ⊆ keysOf b := by
    intro k2 hk2
    have heq := h k2 hk2
    have hsome := (getValue_isSome_iff_mem a k2).mpr hk2
    rw [← heq] at hsome
    exact (getValue_isSome_iff_mem b k2).mp hsome
  have hperm : (keysOf a).Perm (keysOf b) :=
    (List.subperm_of_subset ha hsub).perm_of_length_le (by simp [keysOf, hlen])
  refine ⟨hlen.symm, fun k hk => ?_⟩
  have hk2 : k ∈ keysOf a := hperm.mem_iff.mpr hk
  exact (h k hk2).symm

/-- C7: operator== returns true iff both objects have the same size and every
key of lhs is present in rhs with a byte-identical value (value lengths are
compared before contents); element order is irrelevant; the relation is
reflexive and symmetric on objects with unique keys; and when the sizes
differ it returns false with zero MPI_Info_get value-content calls. -/
theorem C7_equality_operator (a b : Contents)
    (ha : (keysOf a).Nodup) (hb : (keysOf b).Nodup) :
    (info.infoEq a b = true ↔
      (nkeys a = nkeys b ∧ ∀ k ∈ keysOf a, getValue b k = getValue a k))
    ∧ info.infoEq a a = true
    ∧ info.infoEq a b = info.infoEq b a
    ∧ (nkeys a ≠ nkeys b → info.eqImpl a b = (false, 0))
    ∧ info.infoNe a b = !(info.infoEq a b) := by
  refine ⟨infoEq_true_iff a b, ?_, ?_, ?_, rfl⟩
  · exact (infoEq_true_iff a a).mpr ⟨rfl, fun k _ => rfl⟩
  · cases hab : info.infoEq a b with
    | true => exact (infoEq_true_flip a b ha hab).symm
    | false =>
      cases hba : info.infoEq b a with
      | false => rfl
      | true =>
        have := infoEq_true_flip b a hb hba
        rw [hab] at this
        cases this
  · intro hne
    unfold info.eqImpl
    rw [if_pos (show a.length ≠ b.length from hne)]

/-- C7 witness: two concrete equal-content objects in different order compare
equal, and a size mismatch yields false with zero content fetches. -/
theorem C7_equality_operator_witness :
    ((keysOf [("a", "1"), ("b", "2")]).Nodup ∧ (keysOf [("b", "2"), ("a", "1")]).Nodup)
    ∧ info.infoEq [("a", "1"), ("b", "2")] [("a", "1"), ("b", "2")] = true
    ∧ info.infoEq [("a", "1"), ("b", "2")] [("b", "2"), ("a", "1")] =
        info.infoEq [("b", "2"), ("a", "1")] [("a", "1"), ("b", "2")] :=
  ⟨⟨by decide, by decide⟩,
   (C7_equality_operator [("a", "1"), ("b", "2")] [("b", "2"), ("a", "1")]
      (by decide) (by decide)).2.1,
   (C7_equality_operator [("a", "1"), ("b", "2")] [("b", "2"), ("a", "1")]
      (by decide) (by decide)).2.2.1⟩

theorem keysOf_deleteKV_sublist (c : Contents) (k : String) :
    List.Sublist (keysOf (deleteKV c k)) (keysOf c) := by
  induction c with
  | nil => simp
  | cons p rest ih =>
    obtain ⟨k', v'⟩ := p
    by_cases hk : k' = k
    · simp only [deleteKV_cons, if_pos hk, keysOf_cons]
      exact List.sublist_cons_self k' (keysOf rest)
    · simp only [deleteKV_cons, if_neg hk, keysOf_cons]
      exact ih.cons₂ k'

theorem foldl_deleteKV_none (dels : List String) :
    ∀ sC : Contents, ∀ k, getValue sC k = none →
      getValue (dels.foldl deleteKV sC) k = none := by
  induction dels with
  | nil =>
    intro sC k h
    simpa using h
  | cons d rest ih =>
    intro sC k h
    rw [List.foldl_cons]
    exact ih _ k (getValue_deleteKV_none sC d k h)

theorem foldl_deleteKV_of_mem (dels : List String) :
    ∀ sC : Contents, (keysOf sC).Nodup → ∀ k, k ∈ dels →
      getValue (dels.foldl deleteKV sC) k = none := by
  induction dels with
  | nil =>
    intro sC h k hk
    simp at hk
  | cons d rest ih =>
    intro sC h k hk
    rw [List.foldl_cons]
    have hnd2 : (keysOf (deleteKV sC d)).Nodup := h.sublist (keysOf_deleteKV_sublist sC d)
    rcases List.mem_cons.mp hk with rfl | hk2
    · exact foldl_deleteKV_none rest _ k (getValue_deleteKV_self sC k h)
    · exact ih (deleteKV sC d) hnd2 k hk2

theorem foldl_deleteKV_not_mem (dels : List String) :
    ∀ sC : Contents, ∀ k, k ∉ dels →
      getValue (dels.foldl deleteKV sC) k = getValue sC k := by
  induction dels with
  | nil =>
    intro sC k h
    rfl
  | cons d rest ih =>
    intro sC k h
    rw [List.foldl_cons]
    have h1 : k ≠ d := fun he => h (he ▸ List.mem_cons_self d rest)
    rw [ih _ k (fun hm => h (List.mem_cons_of_mem d hm))]
    exact getValue_deleteKV_other sC d k h1

theorem mergeLoop_getValue_present (src : Contents) :
    ∀ tC k, getValue tC k ≠ none →
      getValue (info.mergeLoop tC src).1 k = getValue tC k := by
  induction src with
  | nil =>
    intro tC k h
    rfl
  | cons p rest ih =>
    intro tC k h
    obtain ⟨k2, v2⟩ := p
    by_cases hex : info.key_exists tC k2
    · simp only [info.mergeLoop, if_pos hex]
      exact ih tC k h
    · simp only [info.mergeLoop, if_neg hex]
      have hne : k ≠ k2 := by
        intro he
        subst he
        simp only [info.key_exists, Option.isSome_iff_ne_none, Bool.decide_eq_true,
          decide_eq_true_eq] at hex
        exact hex h
      have h2 : getValue (setKV tC k2 v2) k ≠ none := by
        rw [getValue_setKV_other tC k2 v2 k hne]
        exact h
      rw [ih _ k h2, getValue_setKV_other tC k2 v2 k hne]

theorem mergeLoop_getValue_absent (src : Contents) :
    ∀ tC k, getValue tC k = none →
      getValue (info.mergeLoop tC src).1 k = getValue src k := by
  induction src with
  | nil =>
    intro tC k h
    simpa using h
  | cons p rest ih =>
    intro tC k h
    obtain ⟨k2, v2⟩ := p
    by_cases hke : k2 = k
    · subst hke
      have hex : ¬ info.key_exists tC k2 := by simp [info.key_exists, h]
      simp only [info.mergeLoop, if_neg hex]
      have hp : getValue (setKV tC k2 v2) k2 ≠ none := by simp [getValue_setKV_self]
      rw [mergeLoop_getValue_present rest _ _ hp, getValue_setKV_self]
      simp
    · by_cases hex : info.key_exists tC k2
      · simp only [info.mergeLoop, if_pos hex]
        rw [ih tC k h]
        simp [hke]
      · simp only [info.mergeLoop, if_neg hex]
        have h2 : getValue (setKV tC k2 v2) k = none := by
          rw [getValue_setKV_other tC k2 v2 k (fun he => hke he.symm)]
          exact h
        rw [ih _ k h2]
        simp [hke]

theorem mergeLoop_dels_not_mem (src : Contents) :
    ∀ tC k, getValue tC k ≠ none → k ∉ (info.mergeLoop tC src).2 := by
  induction src with
  | nil =>
    intro tC k h
    simp [info.mergeLoop]
  | cons p rest ih =>
    intro tC k h
    obtain ⟨k2, v2⟩ := p
    by_cases hex : info.key_exists tC k2
    · simp only [info.mergeLoop, if_pos hex]
      exact ih tC k h
    · simp only [info.mergeLoop, if_neg hex]
      intro hm
      rcases List.mem_cons.mp hm with rfl | hm2
      · simp only [info.key_exists, Option.isSome_iff_ne_none, Bool.decide_eq_true,
          decide_eq_true_eq] at hex
        exact hex h
      · have hne : k ≠ k2 := by
          intro he
          subst he
          simp only [info.key_exists, Option.isSome_iff_ne_none, Bool.decide_eq_true,
            decide_eq_true_eq] at hex
          exact hex h
        have h2 : getValue (setKV tC k2 v2) k ≠ none := by
          rw [getValue_setKV_other tC k2 v2 k hne]
          exact h
        exact ih _ k h2 hm2

theorem mergeLoop_dels_mem (src : Contents) :
    ∀ tC k, getValue tC k = none → getValue src k ≠ none →
      k ∈ (info.mergeLoop tC src).2 := by
  induction src with
  | nil =>
    intro tC k h hsv
    simp at hsv
  | cons p rest ih =>
    intro tC k h hsv
    obtain ⟨k2, v2⟩ := p
    by_cases hke : k2 = k
    · subst hke
      have hex : ¬ info.key_exists tC k2 := by simp [info.key_exists, h]
      simp only [info.mergeLoop, if_neg hex]
      exact List.mem_cons_self _ _
    · have hs2 : getValue rest k ≠ none := by
        simpa [hke] using hsv
      by_cases hex : info.key_exists tC k2
      · simp only [info.mergeLoop, if_pos hex]
        exact ih tC k h hs2
      · simp only [info.mergeLoop, if_neg hex]
        have h2 : getValue (setKV tC k2 v2) k = none := by
          rw [getValue_setKV_other _ _ _ _ (fun he => hke he.symm)]
          exact h
        exact List.mem_cons_of_mem _ (ih _ k h2 hs2)

/-- C5: merge on the same object is a no-op; otherwise every key already
present in the target keeps its target value (target precedence) and keeps
its source association untouched, while every source key absent from the
target receives its source value in the target and is deleted from the source
after the whole copy pass, so the source afterwards holds exactly the keys
that were duplicated in the target. -/
theorem C5_merge (tC sC : Contents) (hs : (keysOf sC).Nodup) :
    info.merge tC sC true = (tC, sC)
    ∧ (∀ k, getValue tC k ≠ none →
        getValue (info.merge tC sC false).1 k = getValue tC k
        ∧ getValue (info.merge tC sC false).2 k = getValue sC k)
    ∧ (∀ k, getValue tC k = none →
        getValue (info.merge tC sC false).1 k = getValue sC k
        ∧ getValue (info.merge tC sC false).2 k = none) := by
  have hm : info.merge tC sC false =
      ((info.mergeLoop tC sC).1, (info.mergeLoop tC sC).2.foldl deleteKV sC) := rfl
  refine ⟨rfl, fun k hk => ⟨?_, ?_⟩, fun k hk => ⟨?_, ?_⟩⟩
  · rw [hm]
    exact mergeLoop_getValue_present sC tC k hk
  · rw [hm]
    exact foldl_deleteKV_not_mem _ sC k (mergeLoop_dels_not_mem sC tC k hk)
  · rw [hm]
    exact mergeLoop_getValue_absent sC tC k hk
  · rw [hm]
    cases hsv : getValue sC k with
    | none => exact foldl_deleteKV_none _ sC k hsv
    | some v =>
      exact foldl_deleteKV_of_mem _ sC hs k
        (mergeLoop_dels_mem sC tC k hk (by simp [hsv]))

/-- C5 witness on concrete objects: the duplicated key keeps both
associations, the transferred key moves from source to target. -/
theorem C5_merge_witness :
    ((keysOf [("a", "9"), ("b", "2")]).Nodup
      ∧ getValue [("a", "1")] "a" ≠ none
      ∧ getValue [("a", "1")] "b" = none)
    ∧ getValue (info.merge [("a", "1")] [("a", "9"), ("b", "2")] false).1 "a" =
        getValue [("a", "1")] "a"
    ∧ getValue (info.merge [("a", "1")] [("a", "9"), ("b", "2")] false).2 "a" =
        getValue [("a", "9"), ("b", "2")] "a"
    ∧ getValue (info.merge [("a", "1")] [("a", "9"), ("b", "2")] false).1 "b" =
        getValue [("a", "9"), ("b", "2")] "b"
    ∧ getValue (info.merge [("a", "1")] [("a", "9"), ("b", "2")] false).2 "b" = none :=
  ⟨⟨by decide, by decide, by decide⟩,
   ((C5_merge [("a", "1")] [("a", "9"), ("b", "2")] (by decide)).2.1 "a" (by decide)).1,
   ((C5_merge [("a", "1")] [("a", "9"), ("b", "2")] (by decide)).2.1 "a" (by decide)).2,
   ((C5_merge [("a", "1")] [("a", "9"), ("b", "2")] (by decide)).2.2 "b" (by decide)).1,
   ((C5_merge [("a", "1")] [("a", "9"), ("b", "2")] (by decide)).2.2 "b" (by decide)).2⟩

theorem MPIStore_dup_get_fresh (st : MPIStore) (h : MPI_Info) :
    (st.dup h).1.get (st.dup h).2 = st.get h := by
  simp only [MPIStore.dup, MPIStore.get]
  rw [List.getElem?_concat_length]
  rfl

theorem MPIStore_dup_get_valid (st : MPIStore) (h h2 : MPI_Info)
    (hv : (st.get h2).isSome = true) : (st.dup h).1.get h2 = st.get h2 := by
  cases h2 with
  | null => simp [MPIStore.get] at hv
  | env => rfl
  | dyn i =>
    have hi : i < st.heap.length := by
      by_contra hle
      push_neg at hle
      have hn : st.heap[i]? = none := List.getElem?_eq_none_iff.mpr hle
      simp [MPIStore.get, hn] at hv
    simp only [MPIStore.dup, MPIStore.get]
    rw [List.getElem?_append_left hi]

theorem MPIStore_dup_fresh_ne (st : MPIStore) (h h2 : MPI_Info)
    (hv : (st.get h2).isSome = true) : h2 ≠ (st.dup h).2 := by
  intro he
  subst he
  have hn : st.heap[st.heap.length]? = none := List.getElem?_eq_none_iff.mpr (le_refl _)
  simp [MPIStore.get, MPIStore.dup, hn] at hv

theorem MPIStore_free_get_other (st : MPIStore) (h h2 : MPI_Info) (hne : h2 ≠ h) :
    (st.free h).get h2 = st.get h2 := by
  cases h with
  | null => rfl
  | env => rfl
  | dyn i =>
    cases h2 with
    | null => rfl
    | env => rfl
    | dyn j =>
      have hij : i ≠ j := fun he => hne (by rw [he])
      simp only [MPIStore.free, MPIStore.get]
      rw [List.getElem?_set_ne hij]

theorem MPIStore_setAt_get_other (st : MPIStore) (h h2 : MPI_Info) (k v : String)
    (hne : h2 ≠ h) : (st.setAt h k v).get h2 = st.get h2 := by
  cases h with
  | null => rfl
  | env =>
    cases h2 with
    | null => rfl
    | env => exact absurd rfl hne
    | dyn j => rfl
  | dyn i =>
    cases hres : st.heap[i]? with
    | none => simp [MPIStore.setAt, hres]
    | some oc =>
      cases oc with
      | none => simp [MPIStore.setAt, hres]
      | some c =>
        cases h2 with
        | null => simp [MPIStore.setAt, hres, MPIStore.get]
        | env => simp [MPIStore.setAt, hres, MPIStore.get]
        | dyn j =>
          have hij : i ≠ j := fun he => hne (by rw [he])
          simp only [MPIStore.setAt, hres, MPIStore.get]
          rw [List.getElem?_set_ne hij]

theorem MPIStore_delAt_get_other (st : MPIStore) (h h2 : MPI_Info) (k : String)
    (hne : h2 ≠ h) : (st.delAt h k).get h2 = st.get h2 := by
  cases h with
  | null => rfl
  | env =>
    cases h2 with
    | null => rfl
    | env => exact absurd rfl hne
    | dyn j => rfl
  | dyn i =>
    cases hres : st.heap[i]? with
    | none => simp [MPIStore.delAt, hres]
    | some oc =>
      cases oc with
      | none => simp [MPIStore.delAt, hres]
      | some c =>
        cases h2 with
        | null => simp [MPIStore.delAt, hres, MPIStore.get]
        | env => simp [MPIStore.delAt, hres, MPIStore.get]
        | dyn j =>
          have hij : i ≠ j := fun he => hne (by rw [he])
          simp only [MPIStore.delAt, hres, MPIStore.get]
          rw [List.getElem?_set_ne hij]

theorem dup_fresh_independent (st : MPIStore) (h : MPI_Info) (c : Contents)
    (hval : st.get h = some c) :
    (st.dup h).1.get (st.dup h).2 = some c
    ∧ (st.dup h).2 ≠ h
    ∧ (st.dup h).1.get h = some c
    ∧ (∀ k v, ((st.dup h).1.setAt (st.dup h).2 k v).get h = some c)
    ∧ (∀ k, ((st.dup h).1.delAt (st.dup h).2 k).get h = some c) := by
  have hsome : (st.get h).isSome = true := by simp [hval]
  have hne : h ≠ (st.dup h).2 := MPIStore_dup_fresh_ne st h h hsome
  have hpres : (st.dup h).1.get h = some c :=
    (MPIStore_dup_get_valid st h h hsome).trans hval
  refine ⟨(MPIStore_dup_get_fresh st h).trans hval, Ne.symm hne, hpres,
    fun k v => ?_, fun k => ?_⟩
  · rw [MPIStore_setAt_get_other _ _ _ _ _ hne]
    exact hpres
  · rw [MPIStore_delAt_get_other _ _ _ _ hne]
    exact hpres

/-- C8: copy construction and copy assignment from a valid source duplicate
the source contents into a fresh handle whose wrapper is always freeable: the
copy holds the same contents, the source still holds them, the two handles
differ, and mutating the copy afterwards through set or delete leaves the
source contents untouched. -/
theorem C8_copy_is_deep_and_freeable (st : MPIStore) (other lhs rhs : info)
    (c c2 : Contents) :
    (st.get other.info_ = some c →
      (info.copyCtor st other).2.is_freeable_ = true
      ∧ (info.copyCtor st other).1.get (info.copyCtor st other).2.info_ = some c
      ∧ (info.copyCtor st other).2.info_ ≠ other.info_
      ∧ (info.copyCtor st other).1.get other.info_ = some c
      ∧ (∀ k v, ((info.copyCtor st other).1.setAt (info.copyCtor st other).2.info_ k v).get
          other.info_ = some c)
      ∧ (∀ k, ((info.copyCtor st other).1.delAt (info.copyCtor st other).2.info_ k).get
          other.info_ = some c))
    ∧ (st.get rhs.info_ = some c2 → lhs.info_ ≠ rhs.info_ →
      (info.copyAssign st lhs rhs false).2.1.is_freeable_ = true
      ∧ (info.copyAssign st lhs rhs false).1.get
          (info.copyAssign st lhs rhs false).2.1.info_ = some c2
      ∧ (info.copyAssign st lhs rhs false).2.1.info_ ≠ rhs.info_
      ∧ (info.copyAssign st lhs rhs false).1.get rhs.info_ = some c2
      ∧ (∀ k v, ((info.copyAssign st lhs rhs false).1.setAt
          (info.copyAssign st lhs rhs false).2.1.info_ k v).get rhs.info_ = some c2)
      ∧ (∀ k, ((info.copyAssign st lhs rhs false).1.delAt
          (info.copyAssign st lhs rhs false).2.1.info_ k).get rhs.info_ = some c2)) := by
  constructor
  · intro hval
    obtain ⟨g1, g2, g3, g4, g5⟩ := dup_fresh_independent st other.info_ c hval
    exact ⟨rfl, g1, g2, g3, g4, g5⟩
  · intro hval2 hne
    have hner : rhs.info_ ≠ lhs.info_ := Ne.symm hne
    cases hd : info.destructorFrees lhs with
    | false =>
      have ha : info.copyAssign st lhs rhs false =
          ((st.dup rhs.info_).1, ⟨(st.dup rhs.info_).2, true⟩, false, true) := by
        simp [info.copyAssign, hd]
      obtain ⟨g1, g2, g3, g4, g5⟩ := dup_fresh_independent st rhs.info_ c2 hval2
      rw [ha]
      exact ⟨rfl, g1, g2, g3, g4, g5⟩
    | true =>
      have ha : info.copyAssign st lhs rhs false =
          (((st.free lhs.info_).dup rhs.info_).1,
            ⟨((st.free lhs.info_).dup rhs.info_).2, true⟩, true, true) := by
        simp [info.copyAssign, hd]
      have hval1 : (st.free lhs.info_).get rhs.info_ = some c2 :=
        (MPIStore_free_get_other st lhs.info_ rhs.info_ hner).trans hval2
      obtain ⟨g1, g2, g3, g4, g5⟩ := dup_fresh_independent (st.free lhs.info_) rhs.info_ c2 hval1
      rw [ha]
      exact ⟨rfl, g1, g2, g3, g4, g5⟩

/-- C8 witness on a one-handle heap: the copy is freeable, fresh, holds the
same contents, and the source still does. -/
theorem C8_copy_is_deep_and_freeable_witness :
    ((⟨[some [("a", "1")]], []⟩ : MPIStore).get (info.mk (MPI_Info.dyn 0) false).info_ =
        some [("a", "1")])
    ∧ (info.copyCtor ⟨[some [("a", "1")]], []⟩ ⟨MPI_Info.dyn 0, false⟩).2.is_freeable_ = true
    ∧ (info.copyCtor ⟨[some [("a", "1")]], []⟩ ⟨MPI_Info.dyn 0, false⟩).2.info_ ≠ MPI_Info.dyn 0
    ∧ (info.copyCtor ⟨[some [("a", "1")]], []⟩ ⟨MPI_Info.dyn 0, false⟩).1.get (MPI_Info.dyn 0) =
        some [("a", "1")] :=
  ⟨by decide,
   ((C8_copy_is_deep_and_freeable ⟨[some [("a", "1")]], []⟩ ⟨MPI_Info.dyn 0, false⟩
      ⟨MPI_Info.dyn 0, false⟩ ⟨MPI_Info.dyn 0, false⟩ [("a", "1")] [("a", "1")]).1
      (by decide)).1,
   ((C8_copy_is_deep_and_freeable ⟨[some [("a", "1")]], []⟩ ⟨MPI_Info.dyn 0, false⟩
      ⟨MPI_Info.dyn 0, false⟩ ⟨MPI_Info.dyn 0, false⟩ [("a", "1")] [("a", "1")]).1
      (by decide)).2.2.1,
   ((C8_copy_is_deep_and_freeable ⟨[some [("a", "1")]], []⟩ ⟨MPI_Info.dyn 0, false⟩
      ⟨MPI_Info.dyn 0, false⟩ ⟨MPI_Info.dyn 0, false⟩ [("a", "1")] [("a", "1")]).1
      (by decide)).2.2.2.1⟩

/-- C2: insert leaves the contents unchanged and reports false when the key
already exists (first-wins), otherwise appends the pair and reports true; in
both cases the returned iterator position holds the key.  insert_or_assign
always writes the value (leaving every other key unchanged), reports true iff
the key was absent beforehand, and its returned iterator position holds the
key. -/
theorem C2_insert_and_insert_or_assign (c : Contents) (k v : String) :
    ((getValue c k).isSome = true →
        (info.insert c k v).1 = c ∧ (info.insert c k v).2.2 = false)
    ∧ (getValue c k = none →
        (info.insert c k v).1 = c ++ [(k, v)]
        ∧ getValue (info.insert c k v).1 k = some v
        ∧ (info.insert c k v).2.2 = true)
    ∧ nthKey (info.insert c k v).1 (info.insert c k v).2.1 = some k
    ∧ getValue (info.insert_or_assign c k v).1 k = some v
    ∧ (∀ k2, k2 ≠ k →
        getValue (info.insert_or_assign c k v).1 k2 = getValue c k2)
    ∧ ((info.insert_or_assign c k v).2.2 = true ↔ getValue c k = none)
    ∧ nthKey (info.insert_or_assign c k v).1 (info.insert_or_assign c k v).2.1 = some k := by
  have hvk : getValue (setKV c k v) k = some v := getValue_setKV_self c k v
  have hmset : k ∈ keysOf (setKV c k v) :=
    (getValue_isSome_iff_mem _ k).mp (by simp [hvk])
  cases h : getValue c k with
  | none =>
    have hke : info.key_exists c k = false := by simp [info.key_exists, h]
    have hnm : k ∉ keysOf c := (getValue_eq_none_iff_not_mem c k).mp h
    have hset : setKV c k v = c ++ [(k, v)] := setKV_of_not_mem c k v hnm
    refine ⟨fun hs => by simp [h] at hs, fun _ => ⟨?_, ?_, ?_⟩, ?_, ?_, ?_, ?_, ?_⟩
    · simp [info.insert, hke, hset]
    · simp [info.insert, hke, hvk]
    · simp [info.insert, hke]
    · simp only [info.insert, hke, Bool.false_eq_true, if_false]
      exact find_pos_get_of_mem k _ hmset
    · simp [info.insert_or_assign, hke, hvk]
    · intro k2 h2
      simp [info.insert_or_assign, hke, getValue_setKV_other c k v k2 h2]
    · simp [info.insert_or_assign, hke, h]
    · simp only [info.insert_or_assign]
      exact find_pos_get_of_mem k _ hmset
  | some w =>
    have hke : info.key_exists c k = true := by simp [info.key_exists, h]
    have hm : k ∈ keysOf c :=
      (getValue_isSome_iff_mem c k).mp (by simp [h])
    refine ⟨fun _ => ?_, fun hn => by simp [h] at hn, ?_, ?_, ?_, ?_, ?_⟩
    · simp [info.insert, hke]
    · simp only [info.insert, hke, if_true]
      exact find_pos_get_of_mem k _ hm
    · simp [info.insert_or_assign, hke, hvk]
    · intro k2 h2
      simp [info.insert_or_assign, hke, getValue_setKV_other c k v k2 h2]
    · simp [info.insert_or_assign, hke, h]
    · simp only [info.insert_or_assign]
      exact find_pos_get_of_mem k _ hmset

/-- C2 witness at a present and an absent key on a concrete object. -/
theorem C2_insert_and_insert_or_assign_witness :
    ((getValue [("a", "1")] "a").isSome = true
      ∧ (info.insert [("a", "1")] "a" "9").1 = [("a", "1")]
      ∧ (info.insert [("a", "1")] "a" "9").2.2 = false)
    ∧ (getValue [("a", "1")] "b" = none
      ∧ (info.insert [("a", "1")] "b" "2").1 = [("a", "1")] ++ [("b", "2")]) :=
  ⟨⟨by decide,
    ((C2_insert_and_insert_or_assign [("a", "1")] "a" "9").1 (by decide)).1,
    ((C2_insert_and_insert_or_assign [("a", "1")] "a" "9").1 (by decide)).2⟩,
   ⟨by decide,
    ((C2_insert_and_insert_or_assign [("a", "1")] "b" "2").2.1 (by decide)).1⟩⟩

/-- C10 witness: a bare operator[] call leaves a concrete object unchanged,
and a later read on a state where the key is present does not mutate it. -/
theorem C10_opIndex_no_side_effect_witness :
    (getValue [("a", "1")] "a").isSome = true
    ∧ (info.string_proxy.read (info.opIndex [("a", "1")] "a").2 [("a", "1")]).1 = [("a", "1")] :=
  ⟨by decide, (C10_opIndex_no_side_effect [("a", "1")] [("a", "1")] "a").2.2.2.2 (by decide)⟩

end mpicxx
